import Mathlib

/- Shallow embedding of the go-stream approximate data structures
   (Bloom filter and count-min sketch) and proofs of their spec claims.
   Machine uint64 values are modelled as Nat reduced modulo 2^64 at every
   arithmetic update; Go int arguments are modelled as Int where a sign
   check matters and as Nat once validated positive. Byte strings are
   lists of byte values. -/

namespace GoStream

/-- Modulus of Go uint64 arithmetic, 2^64. -/
def W : Nat := 18446744073709551616

/-- Keys are byte strings ([]byte / string bytes in the source). -/
abbrev Key := List Nat

/-- One step of FNV-64a: xor the byte in, multiply by the FNV prime, mod 2^64. -/
def fnvStep (h b : Nat) : Nat := ((h ^^^ b) * 1099511628211) % W

/-- Feeding a byte slice to an FNV-64a state (one h.Write call in the source). -/
def fnvUpdate (h : Nat) (bytes : Key) : Nat := bytes.foldl fnvStep h

/-- FNV-64a of a whole byte string from the offset basis (fnv.New64a + Write + Sum64). -/
def fnv64a (bytes : Key) : Nat := fnvUpdate 14695981039346656037 bytes

/-- The 8-byte little-endian encoding of a round index
    (binary.LittleEndian.PutUint64 in the source). -/
def leBytes8 (n : Nat) : Key := (List.range 8).map (fun i => n / 256 ^ i % 256)

/-- Hash position used by BloomFilter.hashIndex: FNV-64a state fed the round
    bytes, then the key (two Write calls), taken modulo bitSize. -/
def hashIndexAt (bitSize : Nat) (key : Key) (round : Nat) : Nat :=
  fnvUpdate (fnvUpdate 14695981039346656037 (leBytes8 round)) key % bitSize

/-- hashRowKey from the source: FNV-64a over the row bytes then the key
    (two Write calls), full 64-bit value. -/
def hashRowKey (key : Key) (row : Nat) : Nat :=
  fnvUpdate (fnvUpdate 14695981039346656037 (leBytes8 row)) key

/-- Column selected by CountMinSketch.column: hashRowKey modulo width. -/
def colAt (width : Nat) (key : Key) (row : Nat) : Nat := hashRowKey key row % width

/-- Spec-side hash family: the 8-byte little-endian round encoding followed by
    the key bytes, processed as ONE hash computation (section 4.1 of the spec). -/
def hash64 (key : Key) (round : Nat) : Nat := fnv64a (leBytes8 round ++ key)

/-- The error values declared in the source (errInvalidBitSize etc.). -/
inductive GoErr where
  | invalidBitSize
  | invalidHashFuncs
  | nilBloomFilter
  | incompatibleBloomFilter
  | invalidWidth
  | invalidDepth
  | nilCountMinSketch
  | incompatibleCMS
deriving DecidableEq

/-- BloomFilter struct: bitSize, hashFuncs, the []uint64 word array, and the
    uint64 added counter. -/
structure BloomFilter where
  bitSize : Nat
  hashFuncs : Nat
  bits : List Nat
  added : Nat
deriving DecidableEq

/-- NewBloomFilter: validates both dimensions then allocates
    (bitSize+63)/64 zero words. -/
def newBloomFilter (bitSize hashFuncs : Int) : Except GoErr BloomFilter :=
  if bitSize ≤ 0 then .error .invalidBitSize
  else if hashFuncs ≤ 0 then .error .invalidHashFuncs
  else .ok ⟨bitSize.toNat, hashFuncs.toNat,
            List.replicate ((bitSize.toNat + 63) / 64) 0, 0⟩

/-- BloomFilter.hashIndex from the source (uses only the receiver's bitSize). -/
def BloomFilter.hashIndex (bf : BloomFilter) (key : Key) (round : Nat) : Nat :=
  hashIndexAt bf.bitSize key round

/-- setBit: or the single bit index%64 into word index/64. -/
def setBit (bits : List Nat) (index : Nat) : List Nat :=
  bits.set (index / 64) (bits.getD (index / 64) 0 ||| 1 <<< (index % 64))

/-- hasBit: test bit index%64 of word index/64. -/
def hasBit (bits : List Nat) (index : Nat) : Bool :=
  bits.getD (index / 64) 0 &&& 1 <<< (index % 64) != 0

/-- The setBit loop of BloomFilter.AddBytes over rounds 0..n-1. -/
def addBitsLoop (bitSize : Nat) (key : Key) (n : Nat) (bits : List Nat) : List Nat :=
  (List.range n).foldl (fun bs i => setBit bs (hashIndexAt bitSize key i)) bits

/-- BloomFilter.AddBytes: set one bit per hash round, then increment added
    (uint64, hence mod 2^64). -/
def BloomFilter.addBytes (bf : BloomFilter) (key : Key) : BloomFilter :=
  { bf with bits := addBitsLoop bf.bitSize key bf.hashFuncs bf.bits,
            added := (bf.added + 1) % W }

/-- BloomFilter.TestBytes: true iff every round's bit is set (the source loop
    early-returns false at the first clear bit). -/
def BloomFilter.testBytes (bf : BloomFilter) (key : Key) : Bool :=
  (List.range bf.hashFuncs).all (fun i => hasBit bf.bits (bf.hashIndex key i))

/-- BloomFilter.Merge as a function from (receiver, operand) pointers to
    (returned error, receiver state after the call). -/
def BloomFilter.merge : Option BloomFilter → Option BloomFilter →
    Option GoErr × Option BloomFilter
  | none, _ => (some .nilBloomFilter, none)
  | some bf, none => (some .nilBloomFilter, some bf)
  | some bf, some other =>
    if bf.bitSize ≠ other.bitSize ∨ bf.hashFuncs ≠ other.hashFuncs then
      (some .incompatibleBloomFilter, some bf)
    else
      (none, some { bf with
        bits := List.zipWith (fun a b => a ||| b) bf.bits other.bits,
        added := (bf.added + other.added) % W })

/-- BloomFilter.Reset: clear(bits) preserves length; added := 0. -/
def BloomFilter.reset (bf : BloomFilter) : BloomFilter :=
  { bf with bits := List.replicate bf.bits.length 0, added := 0 }

/-- A finite sequence of AddBytes calls. -/
def BloomFilter.addAll (bf : BloomFilter) (keys : List Key) : BloomFilter :=
  keys.foldl BloomFilter.addBytes bf

/-- BloomFilterCollect: construct, abort on the construction error without
    consuming the sequence, otherwise drain it once in order. -/
def bloomFilterCollect {A : Type} (bitSize hashFuncs : Int) (keyFn : A → Key)
    (seq : List A) : Except GoErr BloomFilter :=
  match newBloomFilter bitSize hashFuncs with
  | .error e => .error e
  | .ok bf => .ok (seq.foldl (fun b a => b.addBytes (keyFn a)) bf)

/-- BloomFilterCollectByError has the same body with NewBloomFilterByError in
    place of NewBloomFilter; that constructor computes dimensions with float64
    math, so its outcome is taken here as a parameter. -/
def bloomFilterCollectByError {A : Type} (ctor : Except GoErr BloomFilter)
    (keyFn : A → Key) (seq : List A) : Except GoErr BloomFilter :=
  match ctor with
  | .error e => .error e
  | .ok bf => .ok (seq.foldl (fun b a => b.addBytes (keyFn a)) bf)

/-- CountMinSketch struct: width, depth, the depth x width uint64 table and
    the uint64 total counter. -/
structure CountMinSketch where
  width : Nat
  depth : Nat
  table : List (List Nat)
  total : Nat
deriving DecidableEq

/-- NewCountMinSketch: validates both dimensions, allocates a zero table. -/
def newCountMinSketch (width depth : Int) : Except GoErr CountMinSketch :=
  if width ≤ 0 then .error .invalidWidth
  else if depth ≤ 0 then .error .invalidDepth
  else .ok ⟨width.toNat, depth.toNat,
            List.replicate depth.toNat (List.replicate width.toNat 0), 0⟩

/-- CountMinSketch.column from the source. -/
def CountMinSketch.column (cms : CountMinSketch) (key : Key) (row : Nat) : Nat :=
  colAt cms.width key row

/-- The per-row update loop of CountMinSketch.AddBytes over rows 0..n-1:
    table[row][column(key,row)] += count, in uint64 arithmetic. -/
def addLoop (width : Nat) (key : Key) (count n : Nat)
    (t : List (List Nat)) : List (List Nat) :=
  (List.range n).foldl
    (fun t2 row =>
      t2.set row ((t2.getD row []).set (colAt width key row)
        (((t2.getD row []).getD (colAt width key row) 0 + count) % W))) t

/-- CountMinSketch.AddBytes: no-op for count == 0, otherwise bump one cell per
    row and the total, in uint64 arithmetic. -/
def CountMinSketch.addBytes (cms : CountMinSketch) (key : Key) (count : Nat) :
    CountMinSketch :=
  if count = 0 then cms
  else { cms with
    table := addLoop cms.width key count cms.depth cms.table,
    total := (cms.total + count) % W }

/-- Cell lookup helper: table[r][c] with the Go zero value as default. -/
def cellAt (cms : CountMinSketch) (r c : Nat) : Nat :=
  (cms.table.getD r []).getD c 0

/-- CountMinSketch.EstimateBytes: minimum of the per-row cells, starting from
    math.MaxUint64 (2^64 - 1). -/
def CountMinSketch.estimateBytes (cms : CountMinSketch) (key : Key) : Nat :=
  (List.range cms.depth).foldl
    (fun m row => min m (cellAt cms row (cms.column key row))) (W - 1)

/-- CountMinSketch.Merge as a function from (receiver, operand) pointers to
    (returned error, receiver state after the call). -/
def CountMinSketch.merge : Option CountMinSketch → Option CountMinSketch →
    Option GoErr × Option CountMinSketch
  | none, _ => (some .nilCountMinSketch, none)
  | some cms, none => (some .nilCountMinSketch, some cms)
  | some cms, some other =>
    if cms.width ≠ other.width ∨ cms.depth ≠ other.depth then
      (some .incompatibleCMS, some cms)
    else
      (none, some { cms with
        table := List.zipWith (fun r1 r2 => List.zipWith (fun a b => (a + b) % W) r1 r2)
          cms.table other.table,
        total := (cms.total + other.total) % W })

/-- CountMinSketch.Reset: clear each row in place (length preserved); total := 0. -/
def CountMinSketch.reset (cms : CountMinSketch) : CountMinSketch :=
  { cms with table := cms.table.map (fun row => List.replicate row.length 0),
             total := 0 }

/-- A finite sequence of AddBytes calls (key, count pairs). -/
def CountMinSketch.addAll (cms : CountMinSketch) (h : List (Key × Nat)) :
    CountMinSketch :=
  h.foldl (fun c kc => c.addBytes kc.1 kc.2) cms

/-- CountMinSketchCollect: construct, abort on the construction error without
    consuming the sequence, otherwise drain it once adding each key with count 1. -/
def countMinSketchCollect {A : Type} (width depth : Int) (keyFn : A → Key)
    (seq : List A) : Except GoErr CountMinSketch :=
  match newCountMinSketch width depth with
  | .error e => .error e
  | .ok cms => .ok (seq.foldl (fun c a => c.addBytes (keyFn a) 1) cms)

/-- CountMinSketchCollectByError has the same body with the float64-based
    NewCountMinSketchByError; its outcome is taken here as a parameter. -/
def countMinSketchCollectByError {A : Type} (ctor : Except GoErr CountMinSketch)
    (keyFn : A → Key) (seq : List A) : Except GoErr CountMinSketch :=
  match ctor with
  | .error e => .error e
  | .ok cms => .ok (seq.foldl (fun c a => c.addBytes (keyFn a) 1) cms)

/-- Sum of the count arguments of all Add calls in a history made with key k. -/
def keyCountSum (h : List (Key × Nat)) (k : Key) : Nat :=
  ((h.filter (fun kc => kc.1 == k)).map (fun kc => kc.2)).sum

/-- Sum of the count arguments of all Add calls in a history that land in the
    cell (row, col) of a width-wide sketch. -/
def cellSum (width : Nat) (h : List (Key × Nat)) (row col : Nat) : Nat :=
  ((h.filter (fun kc => colAt width kc.1 row == col)).map (fun kc => kc.2)).sum

/-- Structural invariant established by NewBloomFilter and kept by every
    operation. -/
def BloomFilter.Valid (bf : BloomFilter) : Prop :=
  0 < bf.bitSize ∧ 0 < bf.hashFuncs ∧
  bf.bits.length = (bf.bitSize + 63) / 64 ∧ bf.added < W

/-- Structural invariant established by NewCountMinSketch and kept by every
    operation. -/
def CountMinSketch.Valid (cms : CountMinSketch) : Prop :=
  0 < cms.width ∧ 0 < cms.depth ∧
  cms.table.length = cms.depth ∧
  (∀ r, (cms.table.getD r []).length = if r < cms.depth then cms.width else 0) ∧
  cms.total < W ∧ (∀ r c, cellAt cms r c < W)

/-! General list and arithmetic helper lemmas. -/

lemma W_pos : 0 < W := by decide

lemma getD_set_of_lt {α : Type} (l : List α) (i : Nat) (a d : α) (j : Nat)
    (h : i < l.length) :
    (l.set i a).getD j d = if i = j then a else l.getD j d := by
  rcases Nat.lt_or_ge j l.length with hj | hj
  · rw [List.getD_eq_getElem _ _ (by simpa using hj), List.getD_eq_getElem _ _ hj,
      List.getElem_set]
  · rw [List.getD_eq_default _ _ (by simpa using hj), List.getD_eq_default _ _ hj,
      if_neg (by omega)]

lemma getD_set_any {α : Type} (l : List α) (i : Nat) (a d : α) (j : Nat)
    (hne : i ≠ j) : (l.set i a).getD j d = l.getD j d := by
  rcases Nat.lt_or_ge i l.length with hi | hi
  · rw [getD_set_of_lt _ _ _ _ _ hi, if_neg hne]
  · rw [List.set_eq_of_length_le hi]

lemma getD_zipWith {α : Type} (f : α → α → α) (d : α) (hd : f d d = d)
    (l1 l2 : List α) (h : l1.length = l2.length) (j : Nat) :
    (List.zipWith f l1 l2).getD j d = f (l1.getD j d) (l2.getD j d) := by
  rcases Nat.lt_or_ge j l1.length with hj | hj
  · rw [List.getD_eq_getElem _ _ (by simp [List.length_zipWith]; omega),
      List.getD_eq_getElem _ _ hj, List.getD_eq_getElem _ _ (h ▸ hj),
      List.getElem_zipWith]
  · rw [List.getD_eq_default _ _ (by simp [List.length_zipWith]; omega),
      List.getD_eq_default _ _ hj, List.getD_eq_default _ _ (by omega), hd]

lemma getD_replicate {α : Type} (n : Nat) (a d : α) (j : Nat) :
    (List.replicate n a).getD j d = if j < n then a else d := by
  rcases Nat.lt_or_ge j n with hj | hj
  · rw [List.getD_eq_getElem _ _ (by simpa using hj), List.getElem_replicate,
      if_pos hj]
  · rw [List.getD_eq_default _ _ (by simpa using hj), if_neg (by omega)]

lemma foldl_lor_init {β : Type} (l : List β) (f : β → Nat) (a : Nat) :
    l.foldl (fun m x => m ||| f x) a = a ||| l.foldl (fun m x => m ||| f x) 0 := by
  induction l generalizing a with
  | nil => simp
  | cons x t ih =>
    simp only [List.foldl_cons]
    rw [ih (a ||| f x), ih (0 ||| f x), Nat.zero_or, Nat.lor_assoc]

lemma foldl_min_ge {β : Type} (l : List β) (f : β → Nat) (a B : Nat) (ha : B ≤ a)
    (hf : ∀ x ∈ l, B ≤ f x) : B ≤ l.foldl (fun m x => min m (f x)) a := by
  induction l generalizing a with
  | nil => simpa using ha
  | cons x t ih =>
    simp only [List.foldl_cons]
    exact ih _ (le_min ha (hf x (by simp))) (fun y hy => hf y (by simp [hy]))

lemma foldl_min_le_init {β : Type} (l : List β) (f : β → Nat) (a : Nat) :
    l.foldl (fun m x => min m (f x)) a ≤ a := by
  induction l generalizing a with
  | nil => simp
  | cons x t ih =>
    simp only [List.foldl_cons]
    exact le_trans (ih _) (min_le_left _ _)

lemma foldl_min_le_of_mem {β : Type} (l : List β) (f : β → Nat) :
    ∀ (a : Nat) (x : β), x ∈ l → l.foldl (fun m y => min m (f y)) a ≤ f x := by
  induction l with
  | nil => intro a x hx; cases hx
  | cons y t ih =>
    intro a x hx
    simp only [List.foldl_cons]
    rcases List.mem_cons.mp hx with h | h
    · subst h
      exact le_trans (foldl_min_le_init t f _) (min_le_right _ _)
    · exact ih _ _ h

/-! Bit-level lemmas. -/

lemma one_shiftLeft_eq (k : Nat) : 1 <<< k = 2 ^ k := by
  rw [Nat.shiftLeft_eq, one_mul]

lemma and_shift_ne_iff (n w : Nat) : n &&& 1 <<< w ≠ 0 ↔ n.testBit w = true := by
  rw [one_shiftLeft_eq, Nat.and_two_pow]
  rcases h : n.testBit w <;> simp [h]

lemma hasBit_iff (bits : List Nat) (idx : Nat) :
    hasBit bits idx = true ↔ (bits.getD (idx / 64) 0).testBit (idx % 64) = true := by
  unfold hasBit
  rw [bne_iff_ne]
  exact and_shift_ne_iff _ _

lemma length_setBit (bits : List Nat) (idx : Nat) :
    (setBit bits idx).length = bits.length := by
  unfold setBit
  exact List.length_set bits _ _

lemma hasBit_setBit_of_hasBit (bits : List Nat) (idx j : Nat)
    (h : hasBit bits j = true) : hasBit (setBit bits idx) j = true := by
  rcases Nat.lt_or_ge (idx / 64) bits.length with hi | hi
  · rw [hasBit_iff] at h ⊢
    unfold setBit
    rw [getD_set_of_lt _ _ _ _ _ hi]
    by_cases he : idx / 64 = j / 64
    · rw [if_pos he, he, Nat.testBit_lor, h, Bool.true_or]
    · rw [if_neg he]
      exact h
  · unfold setBit
    rw [List.set_eq_of_length_le hi]
    exact h

lemma hasBit_setBit_self (bits : List Nat) (idx : Nat)
    (h : idx / 64 < bits.length) : hasBit (setBit bits idx) idx = true := by
  rw [hasBit_iff]
  unfold setBit
  rw [getD_set_of_lt _ _ _ _ _ h, if_pos rfl, Nat.testBit_lor, one_shiftLeft_eq,
    Nat.testBit_two_pow_self]
  simp

lemma length_foldl_setBit (l : List Nat) (f : Nat → Nat) (bits : List Nat) :
    (l.foldl (fun bs i => setBit bs (f i)) bits).length = bits.length := by
  induction l generalizing bits with
  | nil => rfl
  | cons x t ih =>
    simp only [List.foldl_cons]
    rw [ih, length_setBit]

lemma hasBit_foldl_setBit_of_hasBit (l : List Nat) (f : Nat → Nat)
    (bits : List Nat) (j : Nat) (h : hasBit bits j = true) :
    hasBit (l.foldl (fun bs i => setBit bs (f i)) bits) j = true := by
  induction l generalizing bits with
  | nil => exact h
  | cons x t ih =>
    simp only [List.foldl_cons]
    exact ih _ (hasBit_setBit_of_hasBit _ _ _ h)

lemma length_addBitsLoop (bitSize : Nat) (key : Key) (n : Nat) (bits : List Nat) :
    (addBitsLoop bitSize key n bits).length = bits.length :=
  length_foldl_setBit _ _ _

lemma hasBit_addBitsLoop_of_hasBit (bitSize : Nat) (key : Key) (n : Nat)
    (bits : List Nat) (j : Nat) (h : hasBit bits j = true) :
    hasBit (addBitsLoop bitSize key n bits) j = true :=
  hasBit_foldl_setBit_of_hasBit _ _ _ _ h

lemma addBitsLoop_succ (bitSize : Nat) (key : Key) (n : Nat) (bits : List Nat) :
    addBitsLoop bitSize key (n + 1) bits =
      setBit (addBitsLoop bitSize key n bits) (hashIndexAt bitSize key n) := by
  unfold addBitsLoop
  rw [List.range_succ, List.foldl_append]
  rfl

lemma hasBit_addBitsLoop_self (bitSize : Nat) (key : Key) (n : Nat)
    (bits : List Nat) (r : Nat) (hr : r < n)
    (hlen : ∀ i, hashIndexAt bitSize key i / 64 < bits.length) :
    hasBit (addBitsLoop bitSize key n bits) (hashIndexAt bitSize key r) = true := by
  induction n with
  | zero => omega
  | succ m ih =>
    rw [addBitsLoop_succ]
    rcases Nat.lt_or_ge r m with hrm | hrm
    · exact hasBit_setBit_of_hasBit _ _ _ (ih hrm)
    · have hr' : r = m := by omega
      subst hr'
      exact hasBit_setBit_self _ _ (by rw [length_addBitsLoop]; exact hlen r)

lemma hashIndexAt_lt (bitSize : Nat) (key : Key) (i : Nat) (h : 0 < bitSize) :
    hashIndexAt bitSize key i < bitSize :=
  Nat.mod_lt _ h

lemma hashIndexAt_word_lt (bitSize : Nat) (key : Key) (i : Nat) (h : 0 < bitSize) :
    hashIndexAt bitSize key i / 64 < (bitSize + 63) / 64 := by
  have := hashIndexAt_lt bitSize key i h
  omega

/-! Preservation of the Bloom filter invariant. -/

lemma addBytes_bitSize (bf : BloomFilter) (k : Key) :
    (bf.addBytes k).bitSize = bf.bitSize := rfl

lemma addBytes_hashFuncs (bf : BloomFilter) (k : Key) :
    (bf.addBytes k).hashFuncs = bf.hashFuncs := rfl

lemma addBytes_bitsLength (bf : BloomFilter) (k : Key) :
    (bf.addBytes k).bits.length = bf.bits.length :=
  length_addBitsLoop _ _ _ _

lemma valid_addBytes (bf : BloomFilter) (k : Key) (h : bf.Valid) :
    (bf.addBytes k).Valid := by
  obtain ⟨h1, h2, h3, _⟩ := h
  exact ⟨h1, h2, by rw [addBytes_bitsLength]; exact h3,
    Nat.mod_lt _ W_pos⟩

lemma addAll_cons (bf : BloomFilter) (k : Key) (t : List Key) :
    bf.addAll (k :: t) = (bf.addBytes k).addAll t := rfl

lemma addAll_append (bf : BloomFilter) (l1 l2 : List Key) :
    bf.addAll (l1 ++ l2) = (bf.addAll l1).addAll l2 :=
  List.foldl_append _ _ _ _

lemma addAll_bitSize (bf : BloomFilter) (h : List Key) :
    (bf.addAll h).bitSize = bf.bitSize := by
  induction h generalizing bf with
  | nil => rfl
  | cons k t ih => rw [addAll_cons, ih, addBytes_bitSize]

lemma addAll_hashFuncs (bf : BloomFilter) (h : List Key) :
    (bf.addAll h).hashFuncs = bf.hashFuncs := by
  induction h generalizing bf with
  | nil => rfl
  | cons k t ih => rw [addAll_cons, ih, addBytes_hashFuncs]

lemma addAll_bitsLength (bf : BloomFilter) (h : List Key) :
    (bf.addAll h).bits.length = bf.bits.length := by
  induction h generalizing bf with
  | nil => rfl
  | cons k t ih => rw [addAll_cons, ih, addBytes_bitsLength]

lemma valid_addAll (bf : BloomFilter) (h : List Key) (hv : bf.Valid) :
    (bf.addAll h).Valid := by
  induction h generalizing bf with
  | nil => exact hv
  | cons k t ih => exact ih _ (valid_addBytes _ _ hv)

lemma valid_newBloomFilter (bs hf : Int) (bf : BloomFilter)
    (h : newBloomFilter bs hf = .ok bf) : bf.Valid := by
  unfold newBloomFilter at h
  by_cases h1 : bs ≤ 0
  · rw [if_pos h1] at h; cases h
  · rw [if_neg h1] at h
    by_cases h2 : hf ≤ 0
    · rw [if_pos h2] at h; cases h
    · rw [if_neg h2] at h
      cases h
      exact ⟨show 0 < bs.toNat by omega, show 0 < hf.toNat by omega, by simp, W_pos⟩

lemma hasBit_addBytes_of_hasBit (bf : BloomFilter) (k : Key) (j : Nat)
    (h : hasBit bf.bits j = true) : hasBit (bf.addBytes k).bits j = true :=
  hasBit_addBitsLoop_of_hasBit _ _ _ _ _ h

lemma hasBit_addAll_of_hasBit (bf : BloomFilter) (h : List Key) (j : Nat)
    (hb : hasBit bf.bits j = true) : hasBit (bf.addAll h).bits j = true := by
  induction h generalizing bf with
  | nil => exact hb
  | cons k t ih => exact ih _ (hasBit_addBytes_of_hasBit _ _ _ hb)

/-- C1: for every successfully constructed Bloom filter and every finite
    sequence of Add calls with no Reset, every added key tests true no matter
    how many other keys were added before or after it. -/
theorem bloom_no_false_negative (bs hf : Int) (bf0 : BloomFilter)
    (hc : newBloomFilter bs hf = .ok bf0) (pre post : List Key) (k : Key) :
    (bf0.addAll (pre ++ k :: post)).testBytes k = true := by
  have hv0 : bf0.Valid := valid_newBloomFilter bs hf bf0 hc
  rw [addAll_append, addAll_cons]
  set bf1 := bf0.addAll pre with hbf1
  have hv1 : bf1.Valid := valid_addAll _ _ hv0
  obtain ⟨hpos, hfun, hlen, _⟩ := hv1
  have hset : ∀ i, i < bf1.hashFuncs →
      hasBit (bf1.addBytes k).bits (hashIndexAt bf1.bitSize k i) = true := by
    intro i hi
    exact hasBit_addBitsLoop_self _ _ _ _ _ hi
      (fun r => by rw [hlen]; exact hashIndexAt_word_lt _ _ _ hpos)
  unfold BloomFilter.testBytes
  rw [List.all_eq_true]
  intro i hi
  rw [List.mem_range] at hi
  rw [addAll_hashFuncs, addBytes_hashFuncs] at hi
  have hbs : ((bf1.addBytes k).addAll post).bitSize = bf1.bitSize := by
    rw [addAll_bitSize, addBytes_bitSize]
  rw [BloomFilter.hashIndex, hbs]
  exact hasBit_addAll_of_hasBit _ _ _ (hset i hi)

/-- C1 witness: a concrete filter built from three adds still finds the key
    added in the middle. -/
theorem bloom_no_false_negative_witness :
    newBloomFilter 70 2 = .ok ⟨70, 2, [0, 0], 0⟩ ∧
    ((⟨70, 2, [0, 0], 0⟩ : BloomFilter).addAll ([[1]] ++ [3, 4] :: [[2]])).testBytes
      [3, 4] = true :=
  ⟨rfl, bloom_no_false_negative 70 2 _ rfl [[1]] [[2]] [3, 4]⟩

/-! Count-min sketch: pointwise description of the add loop. -/

lemma colAt_lt (width : Nat) (key : Key) (row : Nat) (h : 0 < width) :
    colAt width key row < width :=
  Nat.mod_lt _ h

lemma addLoop_succ (width : Nat) (key : Key) (count n : Nat) (t : List (List Nat)) :
    addLoop width key count (n + 1) t =
      (addLoop width key count n t).set n
        (((addLoop width key count n t).getD n []).set (colAt width key n)
          ((((addLoop width key count n t).getD n []).getD (colAt width key n) 0
            + count) % W)) := by
  unfold addLoop
  rw [List.range_succ, List.foldl_append]
  rfl

lemma length_addLoop (width : Nat) (key : Key) (count n : Nat)
    (t : List (List Nat)) : (addLoop width key count n t).length = t.length := by
  induction n with
  | zero => rfl
  | succ m ih => rw [addLoop_succ, List.length_set, ih]

lemma rowLength_addLoop (width : Nat) (key : Key) (count n : Nat)
    (t : List (List Nat)) (r : Nat) :
    ((addLoop width key count n t).getD r []).length = (t.getD r []).length := by
  induction n with
  | zero => rfl
  | succ m ih =>
    rw [addLoop_succ]
    rcases Nat.lt_or_ge m (addLoop width key count m t).length with hm | hm
    · rw [getD_set_of_lt _ _ _ _ _ hm]
      by_cases he : m = r
      · subst he
        rw [if_pos rfl, List.length_set, ih]
      · rw [if_neg he, ih]
    · rw [List.set_eq_of_length_le hm, ih]

lemma getD_addLoop (width : Nat) (key : Key) (count n : Nat) (t : List (List Nat))
    (hn : n ≤ t.length)
    (hcol : ∀ r, r < t.length → colAt width key r < (t.getD r []).length)
    (r c : Nat) :
    ((addLoop width key count n t).getD r []).getD c 0 =
      if r < n ∧ c = colAt width key r then ((t.getD r []).getD c 0 + count) % W
      else (t.getD r []).getD c 0 := by
  induction n with
  | zero =>
    rw [if_neg (by simp)]
    rfl
  | succ m ih =>
    have hm : m < t.length := by omega
    have hmL : m < (addLoop width key count m t).length := by
      rw [length_addLoop]; exact hm
    rw [addLoop_succ, getD_set_of_lt _ _ _ _ _ hmL]
    by_cases he : m = r
    · subst he
      rw [if_pos rfl]
      have hrow : colAt width key m < ((addLoop width key count m t).getD m []).length := by
        rw [rowLength_addLoop]
        exact hcol m hm
      rw [getD_set_of_lt _ _ _ _ _ hrow]
      by_cases hc : colAt width key m = c
      · rw [if_pos hc, hc, ih (by omega), if_neg (by simp),
          if_pos ⟨by omega, rfl⟩]
      · rw [if_neg hc, ih (by omega), if_neg (by simp),
          if_neg (by rintro ⟨-, h⟩; exact hc h.symm)]
    · rw [if_neg he, ih (by omega)]
      by_cases hrc : r < m ∧ c = colAt width key r
      · rw [if_pos hrc, if_pos ⟨by omega, hrc.2⟩]
      · rw [if_neg hrc,
          if_neg (fun hx => hrc ⟨by obtain ⟨h1, -⟩ := hx; omega, hx.2⟩)]

/-! Count-min sketch: invariant preservation and state formulas. -/

lemma addBytes_width (cms : CountMinSketch) (k : Key) (cnt : Nat) :
    (cms.addBytes k cnt).width = cms.width := by
  unfold CountMinSketch.addBytes
  split <;> rfl

lemma addBytes_depth (cms : CountMinSketch) (k : Key) (cnt : Nat) :
    (cms.addBytes k cnt).depth = cms.depth := by
  unfold CountMinSketch.addBytes
  split <;> rfl

lemma addBytes_tableLength (cms : CountMinSketch) (k : Key) (cnt : Nat) :
    (cms.addBytes k cnt).table.length = cms.table.length := by
  unfold CountMinSketch.addBytes
  split
  · rfl
  · exact length_addLoop _ _ _ _ _

lemma addBytes_rowLength (cms : CountMinSketch) (k : Key) (cnt : Nat) (r : Nat) :
    ((cms.addBytes k cnt).table.getD r []).length = (cms.table.getD r []).length := by
  unfold CountMinSketch.addBytes
  split
  · rfl
  · exact rowLength_addLoop _ _ _ _ _ _

lemma total_addBytes (cms : CountMinSketch) (k : Key) (cnt : Nat)
    (h : cms.total < W) :
    (cms.addBytes k cnt).total = (cms.total + cnt) % W := by
  unfold CountMinSketch.addBytes
  split
  · rename_i h0
    subst h0
    rw [Nat.add_zero, Nat.mod_eq_of_lt h]
  · rfl

lemma cellAt_addBytes (cms : CountMinSketch) (k : Key) (cnt : Nat)
    (hv : cms.Valid) (r c : Nat) :
    cellAt (cms.addBytes k cnt) r c =
      if r < cms.depth ∧ c = colAt cms.width k r then (cellAt cms r c + cnt) % W
      else cellAt cms r c := by
  obtain ⟨hw, hd, hlen, hrow, -, hcell⟩ := hv
  unfold CountMinSketch.addBytes
  split
  · rename_i h0
    subst h0
    split
    · rw [Nat.add_zero, Nat.mod_eq_of_lt (hcell r c)]
    · rfl
  · show ((addLoop cms.width k cnt cms.depth cms.table).getD r []).getD c 0 = _
    rw [getD_addLoop _ _ _ _ _ (by omega)
      (fun r2 hr2 => by rw [hrow r2, if_pos (by omega)]; exact colAt_lt _ _ _ hw)]
    rfl

lemma valid_cms_addBytes (cms : CountMinSketch) (k : Key) (cnt : Nat)
    (hv : cms.Valid) : (cms.addBytes k cnt).Valid := by
  obtain ⟨hw, hd, hlen, hrow, ht, hcell⟩ := hv
  refine ⟨by rw [addBytes_width]; exact hw, by rw [addBytes_depth]; exact hd,
    by rw [addBytes_tableLength, addBytes_depth]; exact hlen,
    fun r => by rw [addBytes_rowLength, addBytes_depth, addBytes_width]; exact hrow r,
    by rw [total_addBytes _ _ _ ht]; exact Nat.mod_lt _ W_pos, fun r c => ?_⟩
  rw [show cellAt (cms.addBytes k cnt) r c =
      ((cms.addBytes k cnt).table.getD r []).getD c 0 from rfl]
  rw [show ((cms.addBytes k cnt).table.getD r []).getD c 0 =
      cellAt (cms.addBytes k cnt) r c from rfl]
  rw [cellAt_addBytes _ _ _ ⟨hw, hd, hlen, hrow, ht, hcell⟩]
  split
  · exact Nat.mod_lt _ W_pos
  · exact hcell r c

lemma cms_addAll_cons (cms : CountMinSketch) (k : Key) (cnt : Nat)
    (t : List (Key × Nat)) :
    cms.addAll ((k, cnt) :: t) = (cms.addBytes k cnt).addAll t := rfl

lemma cms_addAll_append (cms : CountMinSketch) (l1 l2 : List (Key × Nat)) :
    cms.addAll (l1 ++ l2) = (cms.addAll l1).addAll l2 :=
  List.foldl_append _ _ _ _

lemma cms_addAll_width (cms : CountMinSketch) (h : List (Key × Nat)) :
    (cms.addAll h).width = cms.width := by
  induction h generalizing cms with
  | nil => rfl
  | cons kc t ih =>
    show ((cms.addBytes kc.1 kc.2).addAll t).width = _
    rw [ih, addBytes_width]

lemma cms_addAll_depth (cms : CountMinSketch) (h : List (Key × Nat)) :
    (cms.addAll h).depth = cms.depth := by
  induction h generalizing cms with
  | nil => rfl
  | cons kc t ih =>
    show ((cms.addBytes kc.1 kc.2).addAll t).depth = _
    rw [ih, addBytes_depth]

lemma cms_addAll_tableLength (cms : CountMinSketch) (h : List (Key × Nat)) :
    (cms.addAll h).table.length = cms.table.length := by
  induction h generalizing cms with
  | nil => rfl
  | cons kc t ih =>
    show ((cms.addBytes kc.1 kc.2).addAll t).table.length = _
    rw [ih, addBytes_tableLength]

lemma cms_addAll_rowLength (cms : CountMinSketch) (h : List (Key × Nat)) (r : Nat) :
    ((cms.addAll h).table.getD r []).length = (cms.table.getD r []).length := by
  induction h generalizing cms with
  | nil => rfl
  | cons kc t ih =>
    show (((cms.addBytes kc.1 kc.2).addAll t).table.getD r []).length = _
    rw [ih, addBytes_rowLength]

lemma valid_cms_addAll (cms : CountMinSketch) (h : List (Key × Nat))
    (hv : cms.Valid) : (cms.addAll h).Valid := by
  induction h generalizing cms with
  | nil => exact hv
  | cons kc t ih => exact ih _ (valid_cms_addBytes _ _ _ hv)

lemma newCountMinSketch_ok (w d : Int) (cms : CountMinSketch)
    (h : newCountMinSketch w d = .ok cms) :
    cms = ⟨w.toNat, d.toNat,
      List.replicate d.toNat (List.replicate w.toNat 0), 0⟩ ∧ 0 < w ∧ 0 < d := by
  unfold newCountMinSketch at h
  by_cases h1 : w ≤ 0
  · rw [if_pos h1] at h; cases h
  · rw [if_neg h1] at h
    by_cases h2 : d ≤ 0
    · rw [if_pos h2] at h; cases h
    · rw [if_neg h2] at h
      cases h
      exact ⟨rfl, by omega, by omega⟩

lemma valid_newCountMinSketch (w d : Int) (cms : CountMinSketch)
    (h : newCountMinSketch w d = .ok cms) : cms.Valid := by
  obtain ⟨he, hw, hd⟩ := newCountMinSketch_ok w d cms h
  subst he
  refine ⟨show 0 < w.toNat by omega, show 0 < d.toNat by omega, by simp,
    fun r => ?_, W_pos, fun r c => ?_⟩
  · show (List.getD _ r []).length = _
    rw [getD_replicate]
    split <;> simp_all
  · show (List.getD (List.getD _ r []) c 0) < W
    rw [getD_replicate]
    split
    · rw [getD_replicate]; split <;> exact W_pos
    · exact W_pos

lemma cellAt_fresh (dn wn r c : Nat) :
    cellAt ⟨wn, dn, List.replicate dn (List.replicate wn 0), 0⟩ r c = 0 := by
  show (List.getD (List.getD _ r []) c 0) = 0
  rw [getD_replicate]
  split
  · rw [getD_replicate]; split <;> rfl
  · rfl

/-! History-level formulas for the count-min sketch. -/

lemma cellSum_cons (w : Nat) (k : Key) (cnt : Nat) (t : List (Key × Nat)) (r c : Nat) :
    cellSum w ((k, cnt) :: t) r c =
      (if colAt w k r = c then cnt else 0) + cellSum w t r c := by
  unfold cellSum
  by_cases hkc : colAt w k r = c
  · rw [if_pos hkc]
    simp [List.filter_cons, hkc]
  · rw [if_neg hkc]
    simp [List.filter_cons, hkc]

lemma total_addAll (cms : CountMinSketch) (h : List (Key × Nat)) (hv : cms.Valid) :
    (cms.addAll h).total = (cms.total + (h.map (fun kc => kc.2)).sum) % W := by
  induction h generalizing cms with
  | nil =>
    rw [List.map_nil, List.sum_nil, Nat.add_zero, Nat.mod_eq_of_lt hv.2.2.2.2.1]
    rfl
  | cons kc t ih =>
    show ((cms.addBytes kc.1 kc.2).addAll t).total = _
    rw [ih _ (valid_cms_addBytes _ _ _ hv), total_addBytes _ _ _ hv.2.2.2.2.1,
      List.map_cons, List.sum_cons, Nat.mod_add_mod]
    congr 1
    omega

lemma cellAt_addAll (cms : CountMinSketch) (h : List (Key × Nat)) (hv : cms.Valid)
    (r c : Nat) (hr : r < cms.depth) :
    cellAt (cms.addAll h) r c = (cellAt cms r c + cellSum cms.width h r c) % W := by
  induction h generalizing cms with
  | nil =>
    show cellAt cms r c = _
    unfold cellSum
    rw [List.filter_nil, List.map_nil, List.sum_nil, Nat.add_zero,
      Nat.mod_eq_of_lt (hv.2.2.2.2.2 r c)]
  | cons kc t ih =>
    show cellAt ((cms.addBytes kc.1 kc.2).addAll t) r c = _
    rw [ih _ (valid_cms_addBytes _ _ _ hv) (by rw [addBytes_depth]; exact hr),
      cellAt_addBytes _ _ _ hv, addBytes_width]
    rcases kc with ⟨k, cnt⟩
    rw [cellSum_cons]
    by_cases hc : colAt cms.width k r = c
    · rw [if_pos ⟨hr, hc.symm⟩, if_pos hc, Nat.mod_add_mod]
      congr 1
      omega
    · rw [if_neg (by rintro ⟨-, h2⟩; exact hc h2.symm), if_neg hc, Nat.zero_add]

/-! Sum comparison lemmas. -/

lemma keyCountSum_le_cellSum (w : Nat) (h : List (Key × Nat)) (k : Key) (r : Nat) :
    keyCountSum h k ≤ cellSum w h r (colAt w k r) := by
  refine List.Sublist.sum_le_sum (List.Sublist.map _ ?_) (by simp)
  refine List.monotone_filter_right h (fun kc hkc => ?_)
  have : kc.1 = k := by simpa using hkc
  simp [this]

lemma cellSum_le_sum (w : Nat) (h : List (Key × Nat)) (r c : Nat) :
    cellSum w h r c ≤ (h.map (fun kc => kc.2)).sum := by
  refine List.Sublist.sum_le_sum (List.Sublist.map _ ?_) (by simp)
  exact List.filter_sublist h

lemma keyCountSum_le_sum (h : List (Key × Nat)) (k : Key) :
    keyCountSum h k ≤ (h.map (fun kc => kc.2)).sum := by
  refine List.Sublist.sum_le_sum (List.Sublist.map _ ?_) (by simp)
  exact List.filter_sublist h

lemma estimateBytes_ge (cms : CountMinSketch) (k : Key) (B : Nat)
    (hB : B ≤ W - 1)
    (hcell : ∀ r, r < cms.depth → B ≤ cellAt cms r (colAt cms.width k r)) :
    B ≤ cms.estimateBytes k := by
  refine foldl_min_ge _ _ _ _ hB (fun r hr => ?_)
  exact hcell r (List.mem_range.mp hr)

/-- C2 (amended): as long as the mathematical sum of all count arguments in the
    history stays below 2^64 (so no uint64 counter wraps), the estimate for any
    key is at least the sum of the counts added for that key. -/
theorem cms_estimate_dominates (w d : Int) (cms0 : CountMinSketch)
    (hc : newCountMinSketch w d = .ok cms0) (h : List (Key × Nat)) (k : Key)
    (hS : (h.map (fun kc => kc.2)).sum < W) :
    keyCountSum h k ≤ (cms0.addAll h).estimateBytes k := by
  have hv : cms0.Valid := valid_newCountMinSketch w d cms0 hc
  obtain ⟨he, -, -⟩ := newCountMinSketch_ok w d cms0 hc
  have hkS := keyCountSum_le_sum h k
  refine estimateBytes_ge _ _ _ (by omega) (fun r hr => ?_)
  rw [cms_addAll_depth] at hr
  rw [cms_addAll_width, cellAt_addAll _ _ hv _ _ hr]
  have h0 : cellAt cms0 r (colAt cms0.width k r) = 0 := by
    rw [he]
    exact cellAt_fresh _ _ _ _
  rw [h0, Nat.zero_add,
    Nat.mod_eq_of_lt (lt_of_le_of_lt (cellSum_le_sum _ _ _ _) hS)]
  exact keyCountSum_le_cellSum _ _ _ _

/-- C2 witness for the amended theorem: a concrete 16x2 sketch after three
    adds estimates the repeated key at no less than its added total. -/
theorem cms_estimate_dominates_witness :
    newCountMinSketch 16 2 =
      .ok ⟨16, 2, [List.replicate 16 0, List.replicate 16 0], 0⟩ ∧
    ([([3], 5), ([4], 1), ([3], 2)].map (fun kc => kc.2)).sum < W ∧
    keyCountSum [([3], 5), ([4], 1), ([3], 2)] [3] ≤
      (CountMinSketch.addAll ⟨16, 2, [List.replicate 16 0, List.replicate 16 0], 0⟩
        [([3], 5), ([4], 1), ([3], 2)]).estimateBytes [3] :=
  ⟨rfl, by decide,
    cms_estimate_dominates 16 2 _ rfl [([3], 5), ([4], 1), ([3], 2)] [3] (by decide)⟩

/-- C2 counterexample: with uint64 wrap-around, two adds of 2^64 - 1 for the
    same key drive the cell to 2^64 - 2, strictly below the mathematical sum
    2^65 - 2, so the claim as stated fails. -/
theorem cms_estimate_overflow_counterexample :
    newCountMinSketch 1 1 = .ok ⟨1, 1, [[0]], 0⟩ ∧
    ((⟨1, 1, [[0]], 0⟩ : CountMinSketch).addAll
        [([0], W - 1), ([0], W - 1)]).estimateBytes [0] <
      keyCountSum [([0], W - 1), ([0], W - 1)] [0] :=
  ⟨rfl, by decide⟩

/-! Operation counters. -/

lemma newBloomFilter_ok (bs hf : Int) (bf : BloomFilter)
    (h : newBloomFilter bs hf = .ok bf) :
    bf = ⟨bs.toNat, hf.toNat, List.replicate ((bs.toNat + 63) / 64) 0, 0⟩ ∧
      0 < bs ∧ 0 < hf := by
  unfold newBloomFilter at h
  by_cases h1 : bs ≤ 0
  · rw [if_pos h1] at h; cases h
  · rw [if_neg h1] at h
    by_cases h2 : hf ≤ 0
    · rw [if_pos h2] at h; cases h
    · rw [if_neg h2] at h
      cases h
      exact ⟨rfl, by omega, by omega⟩

lemma added_addAll (bf : BloomFilter) (h : List Key) (hlt : bf.added < W) :
    (bf.addAll h).added = (bf.added + h.length) % W := by
  induction h generalizing bf with
  | nil =>
    rw [List.length_nil, Nat.add_zero, Nat.mod_eq_of_lt hlt]
    rfl
  | cons k t ih =>
    rw [addAll_cons, ih _ (Nat.mod_lt _ W_pos)]
    show ((bf.added + 1) % W + t.length) % W = _
    rw [Nat.mod_add_mod, List.length_cons]
    congr 1
    omega

lemma added_addAll_fresh (bs hf : Int) (bf0 : BloomFilter)
    (hb : newBloomFilter bs hf = .ok bf0) (h : List Key) :
    (bf0.addAll h).added = h.length % W := by
  obtain ⟨he, -, -⟩ := newBloomFilter_ok bs hf bf0 hb
  rw [added_addAll _ _ (by rw [he]; exact W_pos), he]
  show (0 + h.length) % W = _
  rw [Nat.zero_add]

lemma total_addAll_fresh (w d : Int) (cms0 : CountMinSketch)
    (hc : newCountMinSketch w d = .ok cms0) (g : List (Key × Nat)) :
    (cms0.addAll g).total = (g.map (fun kc => kc.2)).sum % W := by
  rw [total_addAll _ _ (valid_newCountMinSketch w d cms0 hc)]
  obtain ⟨he, -, -⟩ := newCountMinSketch_ok w d cms0 hc
  rw [he]
  show (0 + _) % W = _
  rw [Nat.zero_add]

/-- C8 (amended): the Bloom filter's added counter equals the number of Add
    calls reduced modulo 2^64, and the sketch's total equals the sum of the
    count arguments reduced modulo 2^64, independent of key duplication. -/
theorem counters_track_operations (bs hf w d : Int) (bf0 : BloomFilter)
    (cms0 : CountMinSketch) (hb : newBloomFilter bs hf = .ok bf0)
    (hc : newCountMinSketch w d = .ok cms0) (hk : List Key)
    (g : List (Key × Nat)) :
    (bf0.addAll hk).added = hk.length % W ∧
    (cms0.addAll g).total = (g.map (fun kc => kc.2)).sum % W :=
  ⟨added_addAll_fresh bs hf bf0 hb hk, total_addAll_fresh w d cms0 hc g⟩

/-- C8 witness: three Bloom adds (with one duplicate key) leave added = 3, and
    two sketch adds of counts 5 and 7 leave total = 12. -/
theorem counters_track_operations_witness :
    newBloomFilter 8 1 = .ok ⟨8, 1, [0], 0⟩ ∧
    newCountMinSketch 4 1 = .ok ⟨4, 1, [[0, 0, 0, 0]], 0⟩ ∧
    ((⟨8, 1, [0], 0⟩ : BloomFilter).addAll [[1], [1], [2]]).added =
      [[1], [1], [2]].length % W ∧
    ((⟨4, 1, [[0, 0, 0, 0]], 0⟩ : CountMinSketch).addAll
        [([1], 5), ([1], 7)]).total =
      ([([1], 5), ([1], 7)].map (fun kc => kc.2)).sum % W :=
  ⟨rfl, rfl,
    (counters_track_operations 8 1 4 1 _ _ rfl rfl [[1], [1], [2]] [([1], 5), ([1], 7)]).1,
    (counters_track_operations 8 1 4 1 _ _ rfl rfl [[1], [1], [2]] [([1], 5), ([1], 7)]).2⟩

/-- C8 counterexample: TotalCount is a wrapping uint64, so two adds of
    2^64 - 1 leave total = 2^64 - 2, not the mathematical sum 2^65 - 2; the
    exact-equality claim fails. -/
theorem counters_track_operations_counterexample :
    newCountMinSketch 1 1 = .ok ⟨1, 1, [[0]], 0⟩ ∧
    ¬(((⟨1, 1, [[0]], 0⟩ : CountMinSketch).addAll
        [([0], W - 1), ([0], W - 1)]).total =
      ([([0], W - 1), ([0], W - 1)].map (fun kc => kc.2)).sum) :=
  ⟨rfl, by decide⟩

/-- C10: every accumulating uint64 value follows wrap-around arithmetic: after
    any history the added counter is the call count mod 2^64, the total is the
    count sum mod 2^64, each cell is its contribution sum mod 2^64, and a
    successful Merge stores the mod-2^64 sums of both operands' histories. -/
theorem uint64_wraparound_semantics (bs hf w d : Int) (bf0 : BloomFilter)
    (cms0 : CountMinSketch) (hb : newBloomFilter bs hf = .ok bf0)
    (hc : newCountMinSketch w d = .ok cms0) (h1 h2 : List Key)
    (g1 g2 : List (Key × Nat)) :
    (bf0.addAll h1).added = h1.length % W ∧
    (BloomFilter.merge (some (bf0.addAll h1)) (some (bf0.addAll h2))).1 = none ∧
    (∀ m, BloomFilter.merge (some (bf0.addAll h1)) (some (bf0.addAll h2)) =
        (none, some m) → m.added = (h1.length + h2.length) % W) ∧
    (cms0.addAll g1).total = (g1.map (fun kc => kc.2)).sum % W ∧
    (∀ r c, r < cms0.depth →
      cellAt (cms0.addAll g1) r c = cellSum cms0.width g1 r c % W) ∧
    (CountMinSketch.merge (some (cms0.addAll g1)) (some (cms0.addAll g2))).1 = none ∧
    (∀ m, CountMinSketch.merge (some (cms0.addAll g1)) (some (cms0.addAll g2)) =
        (none, some m) →
      m.total = ((g1.map (fun kc => kc.2)).sum + (g2.map (fun kc => kc.2)).sum) % W) := by
  obtain ⟨heb, -, -⟩ := newBloomFilter_ok bs hf bf0 hb
  have hvc : cms0.Valid := valid_newCountMinSketch w d cms0 hc
  obtain ⟨hec, -, -⟩ := newCountMinSketch_ok w d cms0 hc
  have hadd1 := added_addAll_fresh bs hf bf0 hb h1
  have hadd2 := added_addAll_fresh bs hf bf0 hb h2
  have htot1 := total_addAll_fresh w d cms0 hc g1
  have htot2 := total_addAll_fresh w d cms0 hc g2
  have hbm : BloomFilter.merge (some (bf0.addAll h1)) (some (bf0.addAll h2)) =
      (none, some { bf0.addAll h1 with
        bits := List.zipWith (fun a b => a ||| b) (bf0.addAll h1).bits
          (bf0.addAll h2).bits,
        added := ((bf0.addAll h1).added + (bf0.addAll h2).added) % W }) := by
    show (if _ then _ else _) = _
    rw [if_neg]
    rw [addAll_bitSize, addAll_bitSize, addAll_hashFuncs, addAll_hashFuncs]
    rintro (h | h) <;> exact h rfl
  have hcm : CountMinSketch.merge (some (cms0.addAll g1)) (some (cms0.addAll g2)) =
      (none, some { cms0.addAll g1 with
        table := List.zipWith
          (fun r1 r2 => List.zipWith (fun a b => (a + b) % W) r1 r2)
          (cms0.addAll g1).table (cms0.addAll g2).table,
        total := ((cms0.addAll g1).total + (cms0.addAll g2).total) % W }) := by
    show (if _ then _ else _) = _
    rw [if_neg]
    rw [cms_addAll_width, cms_addAll_width, cms_addAll_depth, cms_addAll_depth]
    rintro (h | h) <;> exact h rfl
  refine ⟨hadd1, by rw [hbm], fun m hm => ?_, htot1, fun r c hr => ?_, by rw [hcm],
    fun m hm => ?_⟩
  · rw [hbm] at hm
    cases hm
    show ((bf0.addAll h1).added + (bf0.addAll h2).added) % W = _
    rw [hadd1, hadd2, ← Nat.add_mod]
  · rw [cellAt_addAll _ _ hvc _ _ hr]
    have h0 : cellAt cms0 r c = 0 := by
      rw [hec]
      exact cellAt_fresh _ _ _ _
    rw [h0, Nat.zero_add]
  · rw [hcm] at hm
    cases hm
    show ((cms0.addAll g1).total + (cms0.addAll g2).total) % W = _
    rw [htot1, htot2, ← Nat.add_mod]

/-- C5: both Merge implementations return the nil-operand error when either
    side is absent and the incompatible-dimensions error when dimensions
    differ, and in every failure case the receiver state is unchanged. -/
theorem merge_failure_cases :
    (∀ other : Option BloomFilter,
      BloomFilter.merge none other = (some GoErr.nilBloomFilter, none)) ∧
    (∀ bf : BloomFilter,
      BloomFilter.merge (some bf) none = (some GoErr.nilBloomFilter, some bf)) ∧
    (∀ bf other : BloomFilter,
      bf.bitSize ≠ other.bitSize ∨ bf.hashFuncs ≠ other.hashFuncs →
      BloomFilter.merge (some bf) (some other) =
        (some GoErr.incompatibleBloomFilter, some bf)) ∧
    (∀ other : Option CountMinSketch,
      CountMinSketch.merge none other = (some GoErr.nilCountMinSketch, none)) ∧
    (∀ cms : CountMinSketch,
      CountMinSketch.merge (some cms) none = (some GoErr.nilCountMinSketch, some cms)) ∧
    (∀ cms other : CountMinSketch,
      cms.width ≠ other.width ∨ cms.depth ≠ other.depth →
      CountMinSketch.merge (some cms) (some other) =
        (some GoErr.incompatibleCMS, some cms)) := by
  refine ⟨fun o => rfl, fun bf => rfl, fun bf other h => ?_, fun o => rfl,
    fun cms => rfl, fun cms other h => ?_⟩
  · show (if _ then _ else _) = _
    rw [if_pos h]
  · show (if _ then _ else _) = _
    rw [if_pos h]

/-- C5 witness: merging an 8-bit filter into a 16-bit one fails with the
    incompatibility error and leaves the receiver untouched. -/
theorem merge_failure_cases_witness :
    ((8 : Nat) ≠ 16 ∨ (1 : Nat) ≠ 1) ∧
    BloomFilter.merge (some ⟨8, 1, [3], 2⟩) (some ⟨16, 1, [0], 0⟩) =
      (some GoErr.incompatibleBloomFilter, some ⟨8, 1, [3], 2⟩) :=
  ⟨Or.inl (by decide),
    merge_failure_cases.2.2.1 ⟨8, 1, [3], 2⟩ ⟨16, 1, [0], 0⟩ (Or.inl (by decide))⟩

/-! Reset. -/

lemma bloomFilter_eq_of_fields {x y : BloomFilter} (h1 : x.bitSize = y.bitSize)
    (h2 : x.hashFuncs = y.hashFuncs) (h3 : x.bits = y.bits)
    (h4 : x.added = y.added) : x = y := by
  cases x
  cases y
  cases h1
  cases h2
  cases h3
  cases h4
  rfl

lemma cms_eq_of_fields {x y : CountMinSketch} (h1 : x.width = y.width)
    (h2 : x.depth = y.depth) (h3 : x.table = y.table)
    (h4 : x.total = y.total) : x = y := by
  cases x
  cases y
  cases h1
  cases h2
  cases h3
  cases h4
  rfl

lemma hasBit_zeros (n idx : Nat) : hasBit (List.replicate n 0) idx = false := by
  unfold hasBit
  rw [getD_replicate]
  split <;> simp

lemma testBytes_zeros (bf : BloomFilter) (k : Key) (hpos : 0 < bf.hashFuncs)
    (hz : bf.bits = List.replicate bf.bits.length 0) :
    bf.testBytes k = false := by
  unfold BloomFilter.testBytes
  rw [List.all_eq_false]
  refine ⟨0, List.mem_range.mpr hpos, ?_⟩
  rw [hz, hasBit_zeros]
  simp

lemma estimateBytes_le_cell (cms : CountMinSketch) (k : Key) (r : Nat)
    (hr : r < cms.depth) :
    cms.estimateBytes k ≤ cellAt cms r (cms.column k r) :=
  foldl_min_le_of_mem _ _ _ _ (List.mem_range.mpr hr)

lemma estimateBytes_fresh (wn dn : Nat) (k : Key) (hd : 0 < dn) :
    (⟨wn, dn, List.replicate dn (List.replicate wn 0), 0⟩ :
      CountMinSketch).estimateBytes k = 0 := by
  refine Nat.le_antisymm ?_ (Nat.zero_le _)
  have h0 := estimateBytes_le_cell
    ⟨wn, dn, List.replicate dn (List.replicate wn 0), 0⟩ k 0 hd
  rw [cellAt_fresh] at h0
  exact h0

lemma rowmem_of_getD (t : List (List Nat)) (dn wn : Nat) (hlen : t.length = dn)
    (hrow : ∀ r, (t.getD r []).length = if r < dn then wn else 0) :
    ∀ row ∈ t, row.length = wn := by
  intro row hmem
  obtain ⟨i, hi, heq⟩ := List.mem_iff_getElem.mp hmem
  have hgd : t.getD i [] = t[i] := List.getD_eq_getElem t [] hi
  have hfl := hrow i
  rw [hgd, heq] at hfl
  rw [hfl, if_pos (by omega)]

lemma map_replicate_zero (t : List (List Nat)) (wn : Nat)
    (hrow : ∀ row ∈ t, row.length = wn) :
    t.map (fun row => List.replicate row.length 0) =
      List.replicate t.length (List.replicate wn 0) := by
  induction t with
  | nil => rfl
  | cons r rt ih =>
    rw [List.map_cons, hrow r (by simp), List.length_cons, List.replicate_succ,
      ih (fun x hx => hrow x (by simp [hx]))]

/-- C7: Reset returns each structure to exactly the freshly constructed state
    of the same dimensions: every membership test is false, every estimate is
    0, the counters are 0, and the dimensions are unchanged. -/
theorem reset_restores_fresh (bs hf w d : Int) (bf0 : BloomFilter)
    (cms0 : CountMinSketch) (hb : newBloomFilter bs hf = .ok bf0)
    (hc : newCountMinSketch w d = .ok cms0) (hk : List Key)
    (g : List (Key × Nat)) :
    (bf0.addAll hk).reset = bf0 ∧
    (∀ k, ((bf0.addAll hk).reset).testBytes k = false) ∧
    ((bf0.addAll hk).reset).added = 0 ∧
    ((bf0.addAll hk).reset).bitSize = (bf0.addAll hk).bitSize ∧
    ((bf0.addAll hk).reset).hashFuncs = (bf0.addAll hk).hashFuncs ∧
    (cms0.addAll g).reset = cms0 ∧
    (∀ k, ((cms0.addAll g).reset).estimateBytes k = 0) ∧
    ((cms0.addAll g).reset).total = 0 ∧
    ((cms0.addAll g).reset).width = (cms0.addAll g).width ∧
    ((cms0.addAll g).reset).depth = (cms0.addAll g).depth := by
  obtain ⟨heb, hbs, hhf⟩ := newBloomFilter_ok bs hf bf0 hb
  have hvc : cms0.Valid := valid_newCountMinSketch w d cms0 hc
  obtain ⟨hec, hw, hd⟩ := newCountMinSketch_ok w d cms0 hc
  have hbl : (bf0.addAll hk).bits.length = (bs.toNat + 63) / 64 := by
    rw [addAll_bitsLength, heb]
    exact List.length_replicate _ _
  have hreset : (bf0.addAll hk).reset = bf0 := by
    refine bloomFilter_eq_of_fields ?_ ?_ ?_ ?_
    · show (bf0.addAll hk).bitSize = _
      rw [addAll_bitSize]
    · show (bf0.addAll hk).hashFuncs = _
      rw [addAll_hashFuncs]
    · show List.replicate (bf0.addAll hk).bits.length 0 = _
      rw [hbl, heb]
    · show 0 = bf0.added
      rw [heb]
  have hvres : (cms0.addAll g).Valid := valid_cms_addAll _ _ hvc
  have hcreset : (cms0.addAll g).reset = cms0 := by
    refine cms_eq_of_fields ?_ ?_ ?_ ?_
    · show (cms0.addAll g).width = _
      rw [cms_addAll_width]
    · show (cms0.addAll g).depth = _
      rw [cms_addAll_depth]
    · show (cms0.addAll g).table.map (fun row => List.replicate row.length 0) = _
      have hmem : ∀ row ∈ (cms0.addAll g).table, row.length = cms0.width := by
        refine rowmem_of_getD _ cms0.depth cms0.width ?_ ?_
        · rw [cms_addAll_tableLength, hvc.2.2.1]
        · intro r
          rw [cms_addAll_rowLength]
          exact hvc.2.2.2.1 r
      rw [map_replicate_zero _ cms0.width hmem, cms_addAll_tableLength,
        hvc.2.2.1, hec]
    · show 0 = cms0.total
      rw [hec]
  refine ⟨hreset, fun k => ?_, by rw [hreset, heb], by rw [hreset, addAll_bitSize],
    by rw [hreset, addAll_hashFuncs], hcreset, fun k => ?_,
    by rw [hcreset, hec], by rw [hcreset, cms_addAll_width],
    by rw [hcreset, cms_addAll_depth]⟩
  · rw [hreset, heb]
    refine testBytes_zeros _ _ (show 0 < hf.toNat by omega) ?_
    simp
  · rw [hcreset, hec]
    exact estimateBytes_fresh _ _ _ (by omega)

/-- C7 witness: a concrete filter and sketch, after a few adds, reset back to
    their freshly constructed states. -/
theorem reset_restores_fresh_witness :
    newBloomFilter 8 1 = .ok ⟨8, 1, [0], 0⟩ ∧
    newCountMinSketch 4 1 = .ok ⟨4, 1, [[0, 0, 0, 0]], 0⟩ ∧
    ((⟨8, 1, [0], 0⟩ : BloomFilter).addAll [[1], [2]]).reset = ⟨8, 1, [0], 0⟩ ∧
    ((⟨4, 1, [[0, 0, 0, 0]], 0⟩ : CountMinSketch).addAll [([9], 3)]).reset =
      ⟨4, 1, [[0, 0, 0, 0]], 0⟩ :=
  ⟨rfl, rfl,
    (reset_restores_fresh 8 1 4 1 _ _ rfl rfl [[1], [2]] [([9], 3)]).1,
    (reset_restores_fresh 8 1 4 1 _ _ rfl rfl [[1], [2]] [([9], 3)]).2.2.2.2.2.1⟩

/-- C9: both structures position keys with the same pure hash: FNV-64a run
    once over the 8-byte little-endian round encoding followed by the key
    bytes, reduced modulo the target size; BloomFilter.hashIndex and
    CountMinSketch.column agree whenever the sizes match. -/
theorem hash_family_agreement (bf : BloomFilter) (cms : CountMinSketch)
    (key : Key) (r : Nat) :
    bf.hashIndex key r = hash64 key r % bf.bitSize ∧
    cms.column key r = hash64 key r % cms.width ∧
    (bf.bitSize = cms.width → bf.hashIndex key r = cms.column key r) := by
  have hsplit : hash64 key r =
      fnvUpdate (fnvUpdate 14695981039346656037 (leBytes8 r)) key := by
    unfold hash64 fnv64a fnvUpdate
    rw [List.foldl_append]
  refine ⟨?_, ?_, fun he => ?_⟩
  · rw [hsplit]
    rfl
  · rw [hsplit]
    rfl
  · show hashIndexAt bf.bitSize key r = colAt cms.width key r
    rw [he]
    rfl

/-- C9 witness: with equal sizes 8, a concrete key and round hash to the same
    position in both structures. -/
theorem hash_family_agreement_witness :
    (8 : Nat) = (8 : Nat) ∧
    (⟨8, 1, [0], 0⟩ : BloomFilter).hashIndex [1, 2, 3] 5 =
      (⟨8, 1, [[0]], 0⟩ : CountMinSketch).column [1, 2, 3] 5 :=
  ⟨rfl, (hash_family_agreement ⟨8, 1, [0], 0⟩ ⟨8, 1, [[0]], 0⟩ [1, 2, 3] 5).2.2 rfl⟩

/-- C6: each collector returns the construction error with the sequence never
    consumed when construction fails (the result does not depend on the
    sequence at all), and otherwise drains the sequence exactly once in
    production order, adding every element's key (count 1 for the sketch), so
    the result is the structure built by those Add calls on a fresh
    structure. -/
theorem collectors_build_by_draining {A : Type} (keyFn : A → Key)
    (bs hf w d : Int) (ctorB : Except GoErr BloomFilter)
    (ctorC : Except GoErr CountMinSketch) (seq seq2 : List A) :
    (∀ e, newBloomFilter bs hf = .error e →
      bloomFilterCollect bs hf keyFn seq = .error e ∧
      bloomFilterCollect bs hf keyFn seq = bloomFilterCollect bs hf keyFn seq2) ∧
    (∀ bf0, newBloomFilter bs hf = .ok bf0 →
      bloomFilterCollect bs hf keyFn seq = .ok (bf0.addAll (seq.map keyFn))) ∧
    (∀ e, ctorB = .error e →
      bloomFilterCollectByError ctorB keyFn seq = .error e ∧
      bloomFilterCollectByError ctorB keyFn seq =
        bloomFilterCollectByError ctorB keyFn seq2) ∧
    (∀ bf0, ctorB = .ok bf0 →
      bloomFilterCollectByError ctorB keyFn seq = .ok (bf0.addAll (seq.map keyFn))) ∧
    (∀ e, newCountMinSketch w d = .error e →
      countMinSketchCollect w d keyFn seq = .error e ∧
      countMinSketchCollect w d keyFn seq = countMinSketchCollect w d keyFn seq2) ∧
    (∀ cms0, newCountMinSketch w d = .ok cms0 →
      countMinSketchCollect w d keyFn seq =
        .ok (cms0.addAll (seq.map (fun a => (keyFn a, 1))))) ∧
    (∀ e, ctorC = .error e →
      countMinSketchCollectByError ctorC keyFn seq = .error e ∧
      countMinSketchCollectByError ctorC keyFn seq =
        countMinSketchCollectByError ctorC keyFn seq2) ∧
    (∀ cms0, ctorC = .ok cms0 →
      countMinSketchCollectByError ctorC keyFn seq =
        .ok (cms0.addAll (seq.map (fun a => (keyFn a, 1))))) := by
  refine ⟨fun e he => ?_, fun bf0 hok => ?_, fun e he => ?_, fun bf0 hok => ?_,
    fun e he => ?_, fun cms0 hok => ?_, fun e he => ?_, fun cms0 hok => ?_⟩
  · unfold bloomFilterCollect
    rw [he]
    exact ⟨rfl, rfl⟩
  · unfold bloomFilterCollect
    rw [hok]
    show Except.ok _ = _
    rw [BloomFilter.addAll, List.foldl_map]
  · unfold bloomFilterCollectByError
    rw [he]
    exact ⟨rfl, rfl⟩
  · unfold bloomFilterCollectByError
    rw [hok]
    show Except.ok _ = _
    rw [BloomFilter.addAll, List.foldl_map]
  · unfold countMinSketchCollect
    rw [he]
    exact ⟨rfl, rfl⟩
  · unfold countMinSketchCollect
    rw [hok]
    show Except.ok _ = _
    rw [CountMinSketch.addAll, List.foldl_map]
  · unfold countMinSketchCollectByError
    rw [he]
    exact ⟨rfl, rfl⟩
  · unfold countMinSketchCollectByError
    rw [hok]
    show Except.ok _ = _
    rw [CountMinSketch.addAll, List.foldl_map]

/-- C6 witness: an invalid bit size aborts the Bloom collector with the
    construction error for two different sequences, and a valid construction
    drains a two-element sequence into the filter. -/
theorem collectors_build_by_draining_witness :
    newBloomFilter 0 1 = .error GoErr.invalidBitSize ∧
    bloomFilterCollect 0 1 (fun n : Nat => [n]) [1, 2] =
      .error GoErr.invalidBitSize ∧
    newBloomFilter 8 1 = .ok ⟨8, 1, [0], 0⟩ ∧
    bloomFilterCollect 8 1 (fun n : Nat => [n]) [1, 2] =
      .ok ((⟨8, 1, [0], 0⟩ : BloomFilter).addAll ([1, 2].map (fun n => [n]))) :=
  ⟨rfl,
    ((collectors_build_by_draining (fun n : Nat => [n]) 0 1 1 1
      (.error GoErr.invalidBitSize) (.error GoErr.invalidWidth) [1, 2] []).1
      GoErr.invalidBitSize rfl).1,
    rfl,
    (collectors_build_by_draining (fun n : Nat => [n]) 8 1 1 1
      (.error GoErr.invalidBitSize) (.error GoErr.invalidWidth) [1, 2] []).2.1
      ⟨8, 1, [0], 0⟩ rfl⟩

/-! Word-level description of Bloom filter histories. -/

/-- Mask of the bits one AddBytes call for a key sets in word j. -/
def keyMask (bitSize n : Nat) (key : Key) (j : Nat) : Nat :=
  (List.range n).foldl
    (fun m r => m ||| (if hashIndexAt bitSize key r / 64 = j
      then 1 <<< (hashIndexAt bitSize key r % 64) else 0)) 0

/-- Mask of the bits a whole history of AddBytes calls sets in word j. -/
def histMask (bitSize n : Nat) (h : List Key) (j : Nat) : Nat :=
  h.foldl (fun m k => m ||| keyMask bitSize n k j) 0

lemma keyMask_succ (bitSize m : Nat) (key : Key) (j : Nat) :
    keyMask bitSize (m + 1) key j = keyMask bitSize m key j |||
      (if hashIndexAt bitSize key m / 64 = j
        then 1 <<< (hashIndexAt bitSize key m % 64) else 0) := by
  unfold keyMask
  rw [List.range_succ, List.foldl_append]
  rfl

lemma getD_addBitsLoop (bitSize : Nat) (key : Key) (n : Nat) (bits : List Nat)
    (j : Nat) (hlen : ∀ i, hashIndexAt bitSize key i / 64 < bits.length) :
    (addBitsLoop bitSize key n bits).getD j 0 =
      bits.getD j 0 ||| keyMask bitSize n key j := by
  induction n with
  | zero =>
    show bits.getD j 0 = bits.getD j 0 ||| 0
    rw [Nat.or_zero]
  | succ m ih =>
    rw [addBitsLoop_succ, keyMask_succ]
    show (List.set _ _ _).getD j 0 = _
    rw [getD_set_of_lt _ _ _ _ _ (by rw [length_addBitsLoop]; exact hlen m)]
    by_cases he : hashIndexAt bitSize key m / 64 = j
    · rw [if_pos he, if_pos he, he, ih, Nat.lor_assoc]
    · rw [if_neg he, if_neg he, ih, Nat.or_zero]

lemma getD_addBytes_bits (bf : BloomFilter) (key : Key) (j : Nat)
    (hv : bf.Valid) :
    (bf.addBytes key).bits.getD j 0 =
      bf.bits.getD j 0 ||| keyMask bf.bitSize bf.hashFuncs key j := by
  refine getD_addBitsLoop _ _ _ _ _ (fun i => ?_)
  rw [hv.2.2.1]
  exact hashIndexAt_word_lt _ _ _ hv.1

lemma histMask_cons (bitSize n : Nat) (k : Key) (t : List Key) (j : Nat) :
    histMask bitSize n (k :: t) j =
      keyMask bitSize n k j ||| histMask bitSize n t j := by
  unfold histMask
  rw [List.foldl_cons, foldl_lor_init, Nat.zero_or]

lemma histMask_append (bitSize n : Nat) (h1 h2 : List Key) (j : Nat) :
    histMask bitSize n (h1 ++ h2) j =
      histMask bitSize n h1 j ||| histMask bitSize n h2 j := by
  unfold histMask
  rw [List.foldl_append, foldl_lor_init]

lemma getD_addAll_bits (bf : BloomFilter) (h : List Key) (j : Nat)
    (hv : bf.Valid) :
    (bf.addAll h).bits.getD j 0 =
      bf.bits.getD j 0 ||| histMask bf.bitSize bf.hashFuncs h j := by
  induction h generalizing bf with
  | nil =>
    show bf.bits.getD j 0 = bf.bits.getD j 0 ||| histMask _ _ [] j
    rw [histMask, List.foldl_nil, Nat.or_zero]
  | cons k t ih =>
    rw [addAll_cons, ih _ (valid_addBytes _ _ hv), addBytes_bitSize,
      addBytes_hashFuncs, getD_addBytes_bits _ _ _ hv, histMask_cons,
      Nat.lor_assoc]

lemma list_eq_of_getD {α : Type} (d : α) (l1 l2 : List α)
    (hl : l1.length = l2.length) (h : ∀ j, l1.getD j d = l2.getD j d) :
    l1 = l2 := by
  refine List.ext_getElem hl (fun i h1 h2 => ?_)
  rw [← List.getD_eq_getElem l1 d h1, ← List.getD_eq_getElem l2 d h2]
  exact h i

lemma getD_fresh_bits (n j : Nat) : (List.replicate n (0 : Nat)).getD j 0 = 0 := by
  rw [getD_replicate]
  split <;> rfl

/-- C4: on matching dimensions Merge succeeds and produces, word by word, the
    bitwise OR of the two bit arrays (cell by cell, the mod-2^64 sum of the two
    tables) with the counters summed; the resulting receiver is exactly the
    structure built from the concatenation of both operands' insertion
    histories, so every subsequent Test/Estimate query answers as that
    structure does. -/
theorem merge_equals_concatenated_history (bs hf w d : Int) (bf0 : BloomFilter)
    (cms0 : CountMinSketch) (hb : newBloomFilter bs hf = .ok bf0)
    (hc : newCountMinSketch w d = .ok cms0) (h1 h2 : List Key)
    (g1 g2 : List (Key × Nat)) :
    BloomFilter.merge (some (bf0.addAll h1)) (some (bf0.addAll h2)) =
      (none, some (bf0.addAll (h1 ++ h2))) ∧
    (∀ j, (bf0.addAll (h1 ++ h2)).bits.getD j 0 =
      (bf0.addAll h1).bits.getD j 0 ||| (bf0.addAll h2).bits.getD j 0) ∧
    (bf0.addAll (h1 ++ h2)).added =
      ((bf0.addAll h1).added + (bf0.addAll h2).added) % W ∧
    CountMinSketch.merge (some (cms0.addAll g1)) (some (cms0.addAll g2)) =
      (none, some (cms0.addAll (g1 ++ g2))) ∧
    (∀ r c, r < cms0.depth → cellAt (cms0.addAll (g1 ++ g2)) r c =
      (cellAt (cms0.addAll g1) r c + cellAt (cms0.addAll g2) r c) % W) ∧
    (cms0.addAll (g1 ++ g2)).total =
      ((cms0.addAll g1).total + (cms0.addAll g2).total) % W := by
  have hvb : bf0.Valid := valid_newBloomFilter bs hf bf0 hb
  obtain ⟨heb, -, -⟩ := newBloomFilter_ok bs hf bf0 hb
  have hvc : cms0.Valid := valid_newCountMinSketch w d cms0 hc
  obtain ⟨hec, -, -⟩ := newCountMinSketch_ok w d cms0 hc
  have hb0 : ∀ j, bf0.bits.getD j 0 = 0 := by
    intro j
    rw [heb]
    exact getD_fresh_bits _ _
  have hbitsj : ∀ (h : List Key) (j : Nat), (bf0.addAll h).bits.getD j 0 =
      histMask bf0.bitSize bf0.hashFuncs h j := by
    intro h j
    rw [getD_addAll_bits _ _ _ hvb, hb0, Nat.zero_or]
  have horj : ∀ j, (bf0.addAll (h1 ++ h2)).bits.getD j 0 =
      (bf0.addAll h1).bits.getD j 0 ||| (bf0.addAll h2).bits.getD j 0 := by
    intro j
    rw [hbitsj, hbitsj, hbitsj, histMask_append]
  have hlen1 : (bf0.addAll h1).bits.length = (bf0.addAll h2).bits.length := by
    rw [addAll_bitsLength, addAll_bitsLength]
  have hadded : (bf0.addAll (h1 ++ h2)).added =
      ((bf0.addAll h1).added + (bf0.addAll h2).added) % W := by
    rw [added_addAll_fresh bs hf bf0 hb, added_addAll_fresh bs hf bf0 hb,
      added_addAll_fresh bs hf bf0 hb, ← Nat.add_mod, List.length_append]
  have hbits : (bf0.addAll (h1 ++ h2)).bits =
      List.zipWith (fun a b => a ||| b) (bf0.addAll h1).bits (bf0.addAll h2).bits := by
    refine list_eq_of_getD 0 _ _ ?_ (fun j => ?_)
    · rw [List.length_zipWith, addAll_bitsLength, addAll_bitsLength,
        addAll_bitsLength, Nat.min_self]
    · rw [getD_zipWith _ _ rfl _ _ hlen1, horj]
  have hbmerge : BloomFilter.merge (some (bf0.addAll h1)) (some (bf0.addAll h2)) =
      (none, some (bf0.addAll (h1 ++ h2))) := by
    show (if _ then _ else _) = _
    rw [if_neg (by
      rw [addAll_bitSize, addAll_bitSize, addAll_hashFuncs, addAll_hashFuncs]
      rintro (h | h) <;> exact h rfl)]
    refine congrArg _ (congrArg _ (bloomFilter_eq_of_fields ?_ ?_ ?_ ?_)) <;>
      first
      | rw [addAll_bitSize, addAll_bitSize]
      | rw [addAll_hashFuncs, addAll_hashFuncs]
      | exact hbits.symm
      | exact hadded.symm
  -- count-min sketch side
  have hcells : ∀ (g : List (Key × Nat)) (r c : Nat), r < cms0.depth →
      cellAt (cms0.addAll g) r c = cellSum cms0.width g r c % W := by
    intro g r c hr
    rw [cellAt_addAll _ _ hvc _ _ hr]
    have h0 : cellAt cms0 r c = 0 := by
      rw [hec]
      exact cellAt_fresh _ _ _ _
    rw [h0, Nat.zero_add]
  have hsumcells : ∀ r c, r < cms0.depth → cellAt (cms0.addAll (g1 ++ g2)) r c =
      (cellAt (cms0.addAll g1) r c + cellAt (cms0.addAll g2) r c) % W := by
    intro r c hr
    rw [hcells _ _ _ hr, hcells _ _ _ hr, hcells _ _ _ hr, ← Nat.add_mod]
    unfold cellSum
    rw [List.filter_append, List.map_append, List.sum_append]
  have htots : (cms0.addAll (g1 ++ g2)).total =
      ((cms0.addAll g1).total + (cms0.addAll g2).total) % W := by
    rw [total_addAll_fresh w d cms0 hc, total_addAll_fresh w d cms0 hc,
      total_addAll_fresh w d cms0 hc, ← Nat.add_mod, List.map_append,
      List.sum_append]
  have hrowlen : ∀ (g : List (Key × Nat)) r,
      ((cms0.addAll g).table.getD r []).length =
        if r < cms0.depth then cms0.width else 0 := by
    intro g r
    rw [cms_addAll_rowLength]
    exact hvc.2.2.2.1 r
  have htbl : (cms0.addAll (g1 ++ g2)).table =
      List.zipWith (fun r1 r2 => List.zipWith (fun a b => (a + b) % W) r1 r2)
        (cms0.addAll g1).table (cms0.addAll g2).table := by
    have hl1 : (cms0.addAll g1).table.length = (cms0.addAll g2).table.length := by
      rw [cms_addAll_tableLength, cms_addAll_tableLength]
    refine list_eq_of_getD [] _ _ ?_ (fun r => ?_)
    · rw [List.length_zipWith, cms_addAll_tableLength, cms_addAll_tableLength,
        cms_addAll_tableLength, Nat.min_self]
    · rw [getD_zipWith _ _ rfl _ _ hl1]
      refine list_eq_of_getD 0 _ _ ?_ (fun c => ?_)
      · rw [List.length_zipWith, hrowlen, hrowlen, hrowlen, Nat.min_self]
      · have hlr : ((cms0.addAll g1).table.getD r []).length =
            ((cms0.addAll g2).table.getD r []).length := by
          rw [hrowlen, hrowlen]
        rw [getD_zipWith (fun a b => (a + b) % W) 0 (by simp)
          ((cms0.addAll g1).table.getD r []) ((cms0.addAll g2).table.getD r []) hlr]
        rcases Nat.lt_or_ge r cms0.depth with hr | hr
        · exact hsumcells r c hr
        · have hz : ∀ (g : List (Key × Nat)),
              ((cms0.addAll g).table.getD r []).getD c 0 = 0 := by
            intro g
            refine List.getD_eq_default _ _ ?_
            have hcl := hrowlen g r
            rw [if_neg (by omega)] at hcl
            omega
          rw [hz, hz, hz]
          simp
  have hcmerge : CountMinSketch.merge (some (cms0.addAll g1))
      (some (cms0.addAll g2)) = (none, some (cms0.addAll (g1 ++ g2))) := by
    show (if _ then _ else _) = _
    rw [if_neg (by
      rw [cms_addAll_width, cms_addAll_width, cms_addAll_depth, cms_addAll_depth]
      rintro (h | h) <;> exact h rfl)]
    refine congrArg _ (congrArg _ (cms_eq_of_fields ?_ ?_ ?_ ?_)) <;>
      first
      | rw [cms_addAll_width, cms_addAll_width]
      | rw [cms_addAll_depth, cms_addAll_depth]
      | exact htbl.symm
      | exact htots.symm
  exact ⟨hbmerge, horj, hadded, hcmerge, hsumcells, htots⟩

/-- C4 witness: merging two concretely built structures yields exactly the
    structures built from the concatenated histories. -/
theorem merge_equals_concatenated_history_witness :
    newBloomFilter 8 1 = .ok ⟨8, 1, [0], 0⟩ ∧
    newCountMinSketch 4 1 = .ok ⟨4, 1, [[0, 0, 0, 0]], 0⟩ ∧
    BloomFilter.merge (some ((⟨8, 1, [0], 0⟩ : BloomFilter).addAll [[1]]))
        (some ((⟨8, 1, [0], 0⟩ : BloomFilter).addAll [[2]])) =
      (none, some ((⟨8, 1, [0], 0⟩ : BloomFilter).addAll ([[1]] ++ [[2]]))) ∧
    CountMinSketch.merge
        (some ((⟨4, 1, [[0, 0, 0, 0]], 0⟩ : CountMinSketch).addAll [([1], 2)]))
        (some ((⟨4, 1, [[0, 0, 0, 0]], 0⟩ : CountMinSketch).addAll [([3], 5)])) =
      (none, some ((⟨4, 1, [[0, 0, 0, 0]], 0⟩ : CountMinSketch).addAll
        ([([1], 2)] ++ [([3], 5)]))) :=
  ⟨rfl, rfl,
    (merge_equals_concatenated_history 8 1 4 1 _ _ rfl rfl [[1]] [[2]]
      [([1], 2)] [([3], 5)]).1,
    (merge_equals_concatenated_history 8 1 4 1 _ _ rfl rfl [[1]] [[2]]
      [([1], 2)] [([3], 5)]).2.2.2.1⟩

/-- C10 witness: concrete small instances realize the wrap-around counter
    formulas. -/
theorem uint64_wraparound_semantics_witness :
    newBloomFilter 8 1 = .ok ⟨8, 1, [0], 0⟩ ∧
    newCountMinSketch 4 1 = .ok ⟨4, 1, [[0, 0, 0, 0]], 0⟩ ∧
    ((⟨8, 1, [0], 0⟩ : BloomFilter).addAll [[1], [1]]).added =
      [[1], [1]].length % W ∧
    ((⟨4, 1, [[0, 0, 0, 0]], 0⟩ : CountMinSketch).addAll [([1], 6)]).total =
      ([([1], 6)].map (fun kc => kc.2)).sum % W :=
  ⟨rfl, rfl,
    (uint64_wraparound_semantics 8 1 4 1 _ _ rfl rfl [[1], [1]] [] [([1], 6)] []).1,
    (uint64_wraparound_semantics 8 1 4 1 _ _ rfl rfl [[1], [1]] [] [([1], 6)] []).2.2.2.1⟩

end GoStream
